import Mathlib

set_option maxHeartbeats 1000000

/-!
Shallow embedding of the Development-Project-Index repository (src/schema.py,
src/github_indexer.py, src/huggingface_indexer.py, src/index_projects.py),
together with theorems settling the specification claims about it.

Modelling conventions:
* `Timestamp` is an order-preserving abstraction of Python `datetime`
  (`datetime.min` corresponds to `0`; every natural number is a representable
  instant at or after `datetime.min`).
* External collaborators (the HTTP endpoints, `datetime.fromisoformat`,
  `json.load`, the filesystem) are passed in as explicit function or data
  parameters; an exception raised by one of them is `none`.
* Python lists become `List`, dictionaries of known shape become structures,
  raw JSON data becomes the `Json` inductive.
-/

/-- Order-preserving abstraction of Python `datetime`; `datetime.min` is `0`. -/
abbrev Timestamp := Nat

/-- Value of `datetime.min`, the earliest representable timestamp. -/
def datetimeMin : Timestamp := 0

/-- JSON values (the data handled by the `json` module and pydantic).
A timestamp is rendered as its numeric token: the ISO-8601 text form produced
by `isoformat` and read back by `fromisoformat` is a bijective image of the
instant, abstracted here by the `Timestamp` value itself. -/
inductive Json where
  | null
  | str (s : String)
  | num (n : Nat)
  | bool (b : Bool)
  | arr (elems : List Json)
  | obj (fields : List (String × Json))

/-- Model `Project` (src/schema.py lines 10-27): unified project model. -/
structure Project where
  source : String
  type : String
  name : String
  full_name : String
  description : Option String := none
  url : String
  created_at : Option Timestamp := none
  updated_at : Option Timestamp := none
  language : Option String := none
  topics : List String := []
deriving DecidableEq

/-- Model `ProjectIndex` (src/schema.py lines 30-39): metadata mapping plus project
list.  `metadata` is `Dict[str, Any]`, kept as raw JSON fields. -/
structure ProjectIndex where
  metadata : List (String × Json) := []
  projects : List Project := []

/-- Method `ProjectIndex.add_project` (schema.py line 41): append. -/
def add_project (projects : List Project) (project : Project) : List Project :=
  projects ++ [project]

/-- Method `ProjectIndex.get_project_key` (schema.py line 45):
`f"{project.source}:{project.full_name}"`. -/
def get_project_key (project : Project) : String :=
  project.source ++ ":" ++ project.full_name

/-- Method `ProjectIndex.find_project` (schema.py line 57): first entry whose key
equals the key of `project`. -/
def find_project (projects : List Project) (project : Project) : Option Project :=
  projects.find? (fun existing => get_project_key existing == get_project_key project)

/-- Method `ProjectIndex.merge_project` (schema.py line 73): if a key match exists,
replace it in place (`self.projects.index(existing)` locates the first entry
equal to `existing`, then assignment overwrites that slot) and report `false`
(updated); otherwise append and report `true` (added). -/
def merge_project (projects : List Project) (new_project : Project) :
    List Project × Bool :=
  match find_project projects new_project with
  | some existing =>
      (projects.set (projects.findIdx (fun p => p == existing)) new_project, false)
  | none => (add_project projects new_project, true)

/-- Method `ProjectIndex.merge_projects` (schema.py line 95): fold `merge_project`
over the batch, accumulating `(projects, added, updated)`. -/
def merge_projects (projects : List Project) (new_projects : List Project) :
    List Project × Nat × Nat :=
  new_projects.foldl
    (fun acc project =>
      let r := merge_project acc.1 project
      if r.2 then (r.1, acc.2.1 + 1, acc.2.2) else (r.1, acc.2.1, acc.2.2 + 1))
    (projects, 0, 0)

/-- Method `ProjectIndex.get_by_source` (schema.py line 117). -/
def get_by_source (projects : List Project) (source : String) : List Project :=
  projects.filter (fun p => p.source == source)

/-- Method `ProjectIndex.get_by_type` (schema.py line 121). -/
def get_by_type (projects : List Project) (project_type : String) : List Project :=
  projects.filter (fun p => p.type == project_type)

/-- The sort key of `ProjectIndex.sort_by_date` (schema.py line 128):
`x.created_at or datetime.min` (a `datetime` is always truthy, `None` is not). -/
def sort_date_key (x : Project) : Timestamp :=
  x.created_at.getD datetimeMin

/-- Insertion step of a stable sort: `x` is placed before the first element it
strictly precedes, hence after every element it ties with. -/
def insert_stable (lt : Project → Project → Bool) (x : Project) :
    List Project → List Project
  | [] => [x]
  | y :: ys => if lt x y then x :: y :: ys else y :: insert_stable lt x ys

/-- Stable sort modelling Python's stable `list.sort` with comparator `lt`:
elements comparing equal keep their original relative order. -/
def sort_stable (lt : Project → Project → Bool) (l : List Project) : List Project :=
  l.foldl (fun acc x => insert_stable lt x acc) []

/-- Method `ProjectIndex.sort_by_date` (schema.py line 125):
`self.projects.sort(key=lambda x: x.created_at or datetime.min, reverse=reverse)`;
`reverse=True` is the stable descending sort by that key. -/
def sort_by_date (projects : List Project) (reverse : Bool := true) : List Project :=
  if reverse then
    sort_stable (fun a b => sort_date_key b < sort_date_key a) projects
  else
    sort_stable (fun a b => sort_date_key a < sort_date_key b) projects

/-- Rendering of an `Optional[str]` field under `model_dump_json`. -/
def encOptStr : Option String → Json
  | none => Json.null
  | some s => Json.str s

/-- Rendering of an `Optional[datetime]` field under `model_dump_json` with the
`json_encoders` configuration of schema.py line 25 (`isoformat`). -/
def encOptTs : Option Timestamp → Json
  | none => Json.null
  | some t => Json.num t

/-- JSON value of one `Project` under `model_dump_json` / `model_dump`. -/
def Project.toJson (p : Project) : Json :=
  Json.obj
    [("source", Json.str p.source), ("type", Json.str p.type),
     ("name", Json.str p.name), ("full_name", Json.str p.full_name),
     ("description", encOptStr p.description), ("url", Json.str p.url),
     ("created_at", encOptTs p.created_at), ("updated_at", encOptTs p.updated_at),
     ("language", encOptStr p.language),
     ("topics", Json.arr (p.topics.map Json.str))]

/-- Method `ProjectIndex.to_json` (schema.py line 132): the JSON value written by
`model_dump_json` (its text rendering is the external `json` layer). -/
def ProjectIndex.to_json (index : ProjectIndex) : Json :=
  Json.obj [("metadata", Json.obj index.metadata),
            ("projects", Json.arr (index.projects.map Project.toJson))]

/-- Field access on a decoded JSON object. -/
def Json.getField : Json → String → Option Json
  | Json.obj fields, k => fields.lookup k
  | _, _ => none

/-- pydantic validation of a required `str` field (absent or non-string raises). -/
def decReqStr : Option Json → Option String
  | some (Json.str s) => some s
  | _ => none

/-- pydantic validation of an `Optional[str]` field (absent means default `None`). -/
def decOptStr : Option Json → Option (Option String)
  | none => some none
  | some Json.null => some none
  | some (Json.str s) => some (some s)
  | _ => none

/-- pydantic validation of an `Optional[datetime]` field. -/
def decOptTs : Option Json → Option (Option Timestamp)
  | none => some none
  | some Json.null => some none
  | some (Json.num n) => some (some n)
  | _ => none

/-- pydantic validation of a `List[str]` value. -/
def decStrList : List Json → Option (List String)
  | [] => some []
  | Json.str s :: rest =>
      match decStrList rest with
      | some ss => some (s :: ss)
      | none => none
  | _ => none

/-- pydantic validation of the `topics: List[str]` field (absent means `[]`). -/
def decTopics : Option Json → Option (List String)
  | none => some []
  | some (Json.arr elems) => decStrList elems
  | _ => none

/-- pydantic validation `Project(**item)`: every field checked against its
declared type, failure raises (`none`). -/
def Project.fromJson (j : Json) : Option Project :=
  match decReqStr (j.getField "source"), decReqStr (j.getField "type"),
        decReqStr (j.getField "name"), decReqStr (j.getField "full_name"),
        decOptStr (j.getField "description"), decReqStr (j.getField "url"),
        decOptTs (j.getField "created_at"), decOptTs (j.getField "updated_at"),
        decOptStr (j.getField "language"), decTopics (j.getField "topics") with
  | some source, some type, some name, some full_name, some description,
    some url, some created_at, some updated_at, some language, some topics =>
      some { source := source, type := type, name := name,
             full_name := full_name, description := description, url := url,
             created_at := created_at, updated_at := updated_at,
             language := language, topics := topics }
  | _, _, _, _, _, _, _, _, _, _ => none

/-- pydantic validation of the `projects: List[Project]` field. -/
def decProjectList : List Json → Option (List Project)
  | [] => some []
  | j :: rest =>
      match Project.fromJson j, decProjectList rest with
      | some p, some ps => some (p :: ps)
      | _, _ => none

/-- pydantic validation `ProjectIndex(**data)`; `default_metadata` stands for
the default metadata factory of schema.py line 33 (whose `generated_at` comes
from the ambient clock, an external collaborator). -/
def ProjectIndex.fromJson (default_metadata : List (String × Json)) (j : Json) :
    Option ProjectIndex :=
  let metadata :=
    match j.getField "metadata" with
    | none => some default_metadata
    | some (Json.obj fields) => some fields
    | some _ => none
  let projects :=
    match j.getField "projects" with
    | none => some ([] : List Project)
    | some (Json.arr elems) => decProjectList elems
    | some _ => none
  match metadata, projects with
  | some m, some ps => some { metadata := m, projects := ps }
  | _, _ => none

/-- Outcome of opening the snapshot path (the filesystem is external). -/
inductive FileRead where
  | missing
  | content (s : String)

/-- Function `load_existing_index` (src/index_projects.py lines 26-48): a nonexistent
file returns `None`; otherwise `json.load` (modelled by `json_load`, raising is
`none`) and `ProjectIndex(**data)` run inside `try`, any exception is logged as
a warning and `None` is returned. -/
def load_existing_index (read : FileRead) (json_load : String → Option Json)
    (default_metadata : List (String × Json)) : Option ProjectIndex :=
  match read with
  | FileRead.missing => none
  | FileRead.content s =>
      match json_load s with
      | none => none
      | some data =>
          match ProjectIndex.fromJson default_metadata data with
          | none => none
          | some index => some index

/-- Raw repository item returned by the GitHub repos endpoint, with the keys
the code reads (`isPrivate` is the `"private"` key). -/
structure RawRepo where
  name : String
  full_name : String
  isPrivate : Bool := false
  description : Option String := none
  html_url : String := ""
  created_at : String := ""
  updated_at : String := ""
  language : Option String := none
  topics : List String := []
deriving DecidableEq

/-- Constant `per_page = 100` (github_indexer.py line 61). -/
def per_page : Nat := 100

/-- Mapping of one raw repository into a `Project` (github_indexer.py lines
85-100); `iso` models `datetime.fromisoformat` (raising is `none`), applied
after `.replace("Z", "+00:00")`; a raise aborts the whole fetch. -/
def map_repo (iso : String → Option Timestamp) (repo : RawRepo) : Option Project :=
  match iso (repo.created_at.replace "Z" "+00:00"),
        iso (repo.updated_at.replace "Z" "+00:00") with
  | some c, some u =>
      some { source := "GitHub", type := "Repository", name := repo.name,
             full_name := repo.full_name, description := repo.description,
             url := repo.html_url, created_at := some c, updated_at := some u,
             language := repo.language, topics := repo.topics }
  | _, _ => none

/-- The `for repo in repos` body of `fetch_public_repos`: private items are
skipped, the rest are mapped in order; a raised parse aborts (`none`). -/
def map_repos (iso : String → Option Timestamp) : List RawRepo → Option (List Project)
  | [] => some []
  | repo :: rest =>
      if repo.isPrivate then map_repos iso rest
      else
        match map_repo iso repo, map_repos iso rest with
        | some p, some ps => some (p :: ps)
        | _, _ => none

/-- The `while True` pagination loop of `fetch_public_repos` (github_indexer.py
lines 63-109).  `endpoint page` is the page the API returns for that page
number; `fuel` bounds the syntactically unbounded loop (`none` when exhausted);
the result carries the accumulated projects and the number of page requests
issued.  An empty page breaks before mapping; a short page breaks after it. -/
def fetch_repos_loop (iso : String → Option Timestamp)
    (endpoint : Nat → List RawRepo) :
    Nat → Nat → List Project → Nat → Option (List Project × Nat)
  | 0, _, _, _ => none
  | fuel + 1, page, acc, reqs =>
      let repos := endpoint page
      if repos.isEmpty then some (acc, reqs + 1)
      else
        match map_repos iso repos with
        | none => none
        | some ps =>
            if repos.length < per_page then some (acc ++ ps, reqs + 1)
            else fetch_repos_loop iso endpoint fuel (page + 1) (acc ++ ps) (reqs + 1)

/-- Method `GitHubIndexer.fetch_public_repos` (github_indexer.py lines 44-112):
pagination starts at page 1 with an empty accumulator. -/
def fetch_public_repos (iso : String → Option Timestamp)
    (endpoint : Nat → List RawRepo) (fuel : Nat) : Option (List Project × Nat) :=
  fetch_repos_loop iso endpoint fuel 1 [] 0

/-- Raw item returned by the HuggingFace models/datasets/spaces endpoints, with
the keys the code reads (`isPrivate` is the `"private"` key,
`cardDataDescription` is `model.get("cardData", {}).get("description")`). -/
structure RawHFItem where
  id : String
  isPrivate : Bool := false
  cardDataDescription : Option String := none
  description : Option String := none
  createdAt : Option String := none
  lastModified : Option String := none
  pipeline_tag : Option String := none
  sdk : Option String := none
  tags : List String := []
deriving DecidableEq

/-- Python truthiness of an optional string (`None` and `""` are falsy). -/
def py_truthy : Option String → Bool
  | none => false
  | some s => !(s == "")

/-- Python `a or b` on optional strings (the description fallback chain). -/
def py_or (a b : Option String) : Option String :=
  if py_truthy a then a else b

/-- Expression `model["id"].split("/")[-1] if "/" in model["id"] else model["id"]`. -/
def last_segment (s : String) : String :=
  if s.contains '/' then (s.splitOn "/").getLastD s else s

/-- Method `HuggingFaceIndexer._parse_datetime` (huggingface_indexer.py lines 43-51):
falsy input gives `None`; `iso` models `datetime.fromisoformat` applied after
`.replace("Z", "+00:00")`, and a raise is caught, giving `None`. -/
def parse_datetime (iso : String → Option Timestamp) (date_str : Option String) :
    Option Timestamp :=
  match date_str with
  | none => none
  | some s => if s == "" then none else iso (s.replace "Z" "+00:00")

/-- Mapping of one raw model item (huggingface_indexer.py lines 84-95). -/
def map_model (iso : String → Option Timestamp) (model : RawHFItem) : Project :=
  { source := "HuggingFace", type := "Model",
    name := last_segment model.id, full_name := model.id,
    description := py_or model.cardDataDescription model.description,
    url := "https://huggingface.co/" ++ model.id,
    created_at := parse_datetime iso model.createdAt,
    updated_at := parse_datetime iso model.lastModified,
    language := model.pipeline_tag, topics := model.tags }

/-- Mapping of one raw dataset item (huggingface_indexer.py lines 132-143). -/
def map_dataset (iso : String → Option Timestamp) (dataset : RawHFItem) : Project :=
  { source := "HuggingFace", type := "Dataset",
    name := last_segment dataset.id, full_name := dataset.id,
    description := py_or dataset.cardDataDescription dataset.description,
    url := "https://huggingface.co/datasets/" ++ dataset.id,
    created_at := parse_datetime iso dataset.createdAt,
    updated_at := parse_datetime iso dataset.lastModified,
    language := none, topics := dataset.tags }

/-- Mapping of one raw space item (huggingface_indexer.py lines 180-191). -/
def map_space (iso : String → Option Timestamp) (space : RawHFItem) : Project :=
  { source := "HuggingFace", type := "Space",
    name := last_segment space.id, full_name := space.id,
    description := py_or space.cardDataDescription space.description,
    url := "https://huggingface.co/spaces/" ++ space.id,
    created_at := parse_datetime iso space.createdAt,
    updated_at := parse_datetime iso space.lastModified,
    language := space.sdk, topics := space.tags }

/-- The `for model in models` loop body: skip private, append mapped. -/
def map_models (iso : String → Option Timestamp) : List RawHFItem → List Project
  | [] => []
  | m :: rest =>
      if m.isPrivate then map_models iso rest
      else map_model iso m :: map_models iso rest

/-- The `for dataset in datasets` loop body. -/
def map_datasets (iso : String → Option Timestamp) : List RawHFItem → List Project
  | [] => []
  | d :: rest =>
      if d.isPrivate then map_datasets iso rest
      else map_dataset iso d :: map_datasets iso rest

/-- The `for space in spaces` loop body. -/
def map_spaces (iso : String → Option Timestamp) : List RawHFItem → List Project
  | [] => []
  | s :: rest =>
      if s.isPrivate then map_spaces iso rest
      else map_space iso s :: map_spaces iso rest

/-- The HuggingFace listing endpoint for one author serves at most `limit` of
the account's items (the API contract the code relies on); `account` is the
author's full item sequence for the category. -/
def hf_endpoint (account : List RawHFItem) (limit : Nat) : List RawHFItem :=
  account.take limit

/-- Method `HuggingFaceIndexer.fetch_public_models` (huggingface_indexer.py lines
53-99): one single request with `limit: 500`, no pagination loop. -/
def fetch_public_models (iso : String → Option Timestamp)
    (account : List RawHFItem) : List Project :=
  map_models iso (hf_endpoint account 500)

/-- Method `HuggingFaceIndexer.fetch_public_datasets` (lines 101-147): one single
request with `limit: 500`. -/
def fetch_public_datasets (iso : String → Option Timestamp)
    (account : List RawHFItem) : List Project :=
  map_datasets iso (hf_endpoint account 500)

/-- Method `HuggingFaceIndexer.fetch_public_spaces` (lines 149-195): one single
request with `limit: 500`. -/
def fetch_public_spaces (iso : String → Option Timestamp)
    (account : List RawHFItem) : List Project :=
  map_spaces iso (hf_endpoint account 500)

/-- The complete sequence of public model Records present on the account (what
the spec asserts each category fetch produces). -/
def complete_public_models (iso : String → Option Timestamp)
    (account : List RawHFItem) : List Project :=
  map_models iso account

/-- The complete sequence of public dataset Records present on the account. -/
def complete_public_datasets (iso : String → Option Timestamp)
    (account : List RawHFItem) : List Project :=
  map_datasets iso account

/-- The complete sequence of public space Records present on the account. -/
def complete_public_spaces (iso : String → Option Timestamp)
    (account : List RawHFItem) : List Project :=
  map_spaces iso account

/-- Observable effects of `main` (src/index_projects.py lines 140-256) that the
error-handling claims are about. -/
inductive Event where
  | mkdirData
  | initOk (platform : String)
  | initFail (platform : String)
  | loadedExisting (found : Bool)
  | earlyExit
  | writeSnapshot
  | writeExport (filename : String)
deriving DecidableEq

/-- Function `create_organized_output` (index_projects.py lines 89-137): one export file
per non-empty (source, type) combination. -/
def organized_events (projects : List Project) : List Event :=
  (if (projects.filter (fun p => p.source == "GitHub" && p.type == "Repository")).isEmpty
   then [] else [Event.writeExport "github_repositories.json"])
  ++ (if (projects.filter (fun p => p.source == "GitHub" && p.type == "Gist")).isEmpty
      then [] else [Event.writeExport "github_gists.json"])
  ++ (if (projects.filter (fun p => p.source == "HuggingFace" && p.type == "Model")).isEmpty
      then [] else [Event.writeExport "huggingface_models.json"])
  ++ (if (projects.filter (fun p => p.source == "HuggingFace" && p.type == "Dataset")).isEmpty
      then [] else [Event.writeExport "huggingface_datasets.json"])
  ++ (if (projects.filter (fun p => p.source == "HuggingFace" && p.type == "Space")).isEmpty
      then [] else [Event.writeExport "huggingface_spaces.json"])

/-- Effect trace of `main` (index_projects.py lines 140-256).  `ghOk` / `hfOk`
say whether each indexer's constructor succeeded (its `try` block); `prior` is
the outcome of `load_existing_index`; the three lists are the fetch results.
When neither indexer initialized, `main` logs and returns before the snapshot
or any export is written; otherwise it merges, sorts, saves the snapshot
(`save_index`) and writes the per-category exports. -/
def main_events (ghOk hfOk : Bool) (prior : Option ProjectIndex)
    (ghRepos ghGists hfAll : List Project) : List Event :=
  [Event.mkdirData]
  ++ [if ghOk then Event.initOk "GitHub" else Event.initFail "GitHub"]
  ++ [if hfOk then Event.initOk "HuggingFace" else Event.initFail "HuggingFace"]
  ++ (if !ghOk && !hfOk then [Event.earlyExit]
      else
        let ps0 := match prior with | some index => index.projects | none => []
        let ps1 := if ghOk then (merge_projects (merge_projects ps0 ghRepos).1 ghGists).1 else ps0
        let ps2 := if hfOk then (merge_projects ps1 hfAll).1 else ps1
        let ps3 := sort_by_date ps2 true
        [Event.loadedExisting prior.isSome, Event.writeSnapshot]
          ++ organized_events ps3)

/-- The write effects the early-exit claim is about: the unified snapshot and
the per-category export files. -/
def isWriteEvent : Event → Bool
  | Event.writeSnapshot => true
  | Event.writeExport _ => true
  | _ => false

/-- Whether some entry of `projects` carries the key `k`. -/
def has_key (projects : List Project) (k : String) : Bool :=
  projects.any (fun q => get_project_key q == k)

/-- Replace the first entry carrying key `k` with `p` (in place). -/
def replace_first_by_key (k : String) (p : Project) : List Project → List Project
  | [] => []
  | q :: qs =>
      if get_project_key q = k then p :: qs else q :: replace_first_by_key k p qs

/-- Derived characterization of `merge_project`, proved equal to it below:
replace the first key match in place, else append. -/
def merge_project_alt (projects : List Project) (p : Project) :
    List Project × Bool :=
  if has_key projects (get_project_key p) then
    (replace_first_by_key (get_project_key p) p projects, false)
  else (projects ++ [p], true)

/-- The key sequence of an index's project list. -/
def keys_of (projects : List Project) : List String :=
  projects.map get_project_key

/-- First entry carrying key `k`. -/
def lookup_key (projects : List Project) (k : String) : Option Project :=
  projects.find? (fun q => get_project_key q == k)

/-- Last entry of a batch carrying key `k` (the survivor of in-batch
duplicates). -/
def last_with_key (batch : List Project) (k : String) : Option Project :=
  batch.reverse.find? (fun q => get_project_key q == k)

/-- Indexes reachable from the empty index by merge operations (the lifecycle
of `ProjectIndex.projects`: constructed empty, mutated only by merges). -/
inductive ReachableIndex : List Project → Prop where
  | empty : ReachableIndex []
  | step (projects p) : ReachableIndex projects →
      ReachableIndex (merge_project projects p).1
  | batch (projects batch) : ReachableIndex projects →
      ReachableIndex (merge_projects projects batch).1

/-- A `fromisoformat` model that accepts everything (all stamps `0`);
used to instantiate fetch theorems at concrete inputs. -/
def iso_all : String → Option Timestamp := fun _ => some 0

/-- A `fromisoformat` model that rejects everything (always raises). -/
def iso_none : String → Option Timestamp := fun _ => none

/-- Concrete raw repository used by the pagination witness. -/
def sample_repo : RawRepo := { name := "r", full_name := "me/r" }

/-- Simulated paged endpoint with page sizes 100, 100, 37. -/
def c4_endpoint : Nat → List RawRepo
  | 1 => List.replicate 100 sample_repo
  | 2 => List.replicate 100 sample_repo
  | 3 => List.replicate 37 sample_repo
  | _ => []

/-- Concrete raw HuggingFace item. -/
def sample_hf_item : RawHFItem := { id := "me/m" }

/-- A HuggingFace account holding 501 public items in one category. -/
def big_hf_account : List RawHFItem := List.replicate 501 sample_hf_item

/-- A raw HuggingFace item whose timestamp strings are not parseable. -/
def bad_date_hf_item : RawHFItem :=
  { id := "me/bad", createdAt := some "not-a-date", lastModified := some "also-bad" }

/-- Record with a colliding string key but different (source, full_name) pair:
its key is `"GitHub:x" + ":" + "y" = "GitHub:x:y"`. -/
def colon_rec_a : Project :=
  { source := "GitHub:x", type := "Repository", name := "y", full_name := "y",
    url := "u" }

/-- Record whose key is `"GitHub" + ":" + "x:y" = "GitHub:x:y"`, the same
string as `colon_rec_a`'s, with a different (source, full_name) pair. -/
def colon_rec_b : Project :=
  { source := "GitHub", type := "Repository", name := "x:y", full_name := "x:y",
    url := "u" }

/-- Record without a creation date. -/
def rec_no_date : Project :=
  { source := "S", type := "T", name := "n", full_name := "n", url := "u",
    created_at := none }

/-- Record created at `datetime.min` (T1 of the sort counterexample). -/
def rec_min_date : Project :=
  { source := "S", type := "T", name := "z", full_name := "z", url := "u",
    created_at := some datetimeMin }

/-- Record created at a later instant (T2 of the sort counterexample). -/
def rec_late_date : Project :=
  { source := "S", type := "T", name := "o", full_name := "o", url := "u",
    created_at := some 1 }

/-- Record created at a still later instant (T2 of the amended sort witness). -/
def rec_later_date : Project :=
  { source := "S", type := "T", name := "w", full_name := "w", url := "u",
    created_at := some 2 }

/-- Concrete records for merge witnesses (distinct keys). -/
def wit_rec_a : Project :=
  { source := "GitHub", type := "Repository", name := "a", full_name := "me/a",
    url := "ua" }

/-- Second witness record. -/
def wit_rec_b : Project :=
  { source := "GitHub", type := "Repository", name := "b", full_name := "me/b",
    url := "ub" }

/-- Replacement for `wit_rec_b`: same key, different contents. -/
def wit_rec_b2 : Project :=
  { source := "GitHub", type := "Repository", name := "b", full_name := "me/b",
    url := "ub2", description := some "new" }

/-- A record whose key matches nothing in the witness index. -/
def wit_rec_c : Project :=
  { source := "HuggingFace", type := "Model", name := "c", full_name := "me/c",
    url := "uc" }

/-- Concrete index used by the snapshot round-trip witness. -/
def c8_index : ProjectIndex :=
  { metadata := [("version", Json.str "1.0")],
    projects := [{ source := "GitHub", type := "Repository", name := "a",
                   full_name := "me/a", description := some "d", url := "ua",
                   created_at := some 5, updated_at := some 6,
                   language := some "Python", topics := ["t1", "t2"] },
                 wit_rec_c] }

/-- Derived characterization of `merge_projects` by structural recursion,
proved equal to the source fold below. -/
def merge_projects_alt (projects : List Project) :
    List Project → List Project × Nat × Nat
  | [] => (projects, 0, 0)
  | r :: T =>
      let m := merge_project projects r
      let rest := merge_projects_alt m.1 T
      (rest.1, (if m.2 then 1 else 0) + rest.2.1,
       (if m.2 then 0 else 1) + rest.2.2)

/-! ### Key, lookup and merge lemmas -/

theorem has_key_iff_mem (projects : List Project) (k : String) :
    has_key projects k = true ↔ k ∈ keys_of projects := by
  simp [has_key, keys_of, List.any_eq_true, List.mem_map, beq_iff_eq]

theorem lookup_eq_none_of_not_mem (projects : List Project) (k : String)
    (h : k ∉ keys_of projects) : lookup_key projects k = none := by
  apply List.find?_eq_none.mpr
  intro x hx hbe
  exact h (List.mem_map.mpr ⟨x, hx, beq_iff_eq.mp hbe⟩)

theorem merge_project_eq_alt (projects : List Project) (p : Project) :
    merge_project projects p = merge_project_alt projects p := by
  induction projects with
  | nil => rfl
  | cons q qs ih =>
    by_cases hq : get_project_key q = get_project_key p
    · have hfind : find_project (q :: qs) p = some q :=
        List.find?_cons_of_pos _ (by simp [beq_iff_eq, hq])
      have hidx : (q :: qs).findIdx (fun x => x == q) = 0 := by
        simp [List.findIdx_cons]
      have hhk : has_key (q :: qs) (get_project_key p) = true :=
        List.any_eq_true.mpr ⟨q, List.mem_cons_self q qs, by simp [beq_iff_eq, hq]⟩
      simp [merge_project, hfind, hidx, merge_project_alt, hhk,
            replace_first_by_key, hq, List.set_cons_zero]
    · have hfind : find_project (q :: qs) p = find_project qs p :=
        List.find?_cons_of_neg _ (by simp [beq_iff_eq, hq])
      have h1' : ∀ ex, find_project qs p = some ex →
          qs.find? (fun existing =>
            get_project_key existing == get_project_key p) = some ex :=
        fun ex h => h
      cases h1 : find_project qs p with
      | none =>
        have hk : has_key (q :: qs) (get_project_key p) = false := by
          cases hks : has_key (q :: qs) (get_project_key p)
          · rfl
          · obtain ⟨x, hx, hbe⟩ := List.any_eq_true.mp hks
            rcases List.mem_cons.mp hx with rfl | hxqs
            · exact absurd (beq_iff_eq.mp hbe) hq
            · exact absurd hbe (List.find?_eq_none.mp h1 x hxqs)
        simp [merge_project, hfind, h1, merge_project_alt, hk, add_project]
      | some ex =>
        have hex : get_project_key ex = get_project_key p := by
          have hfs := List.find?_some (h1' ex h1)
          simpa [beq_iff_eq] using hfs
        have hexmem : ex ∈ qs := List.mem_of_find?_eq_some (h1' ex h1)
        have hqex : (q == ex) = false := by
          rw [beq_eq_false_iff_ne]
          intro he
          exact hq (he ▸ hex)
        have hkqs : has_key qs (get_project_key p) = true :=
          List.any_eq_true.mpr ⟨ex, hexmem, by simp [beq_iff_eq, hex]⟩
        have hhk : has_key (q :: qs) (get_project_key p) = true := by
          obtain ⟨x, hx, hbe⟩ := List.any_eq_true.mp hkqs
          exact List.any_eq_true.mpr ⟨x, List.mem_cons_of_mem q hx, hbe⟩
        have hset : qs.set (qs.findIdx (fun x => x == ex)) p =
            replace_first_by_key (get_project_key p) p qs := by
          have h2 := ih
          simp [merge_project, h1, merge_project_alt, hkqs] at h2
          exact h2
        simp [merge_project, hfind, h1, merge_project_alt,
              List.findIdx_cons, hqex, List.set_cons_succ,
              replace_first_by_key, hq, hhk, hset]

theorem merge_projects_foldl (batch : List Project) (projects : List Project)
    (a u : Nat) :
    List.foldl
      (fun acc project =>
        let r := merge_project acc.1 project
        if r.2 then (r.1, acc.2.1 + 1, acc.2.2) else (r.1, acc.2.1, acc.2.2 + 1))
      (projects, a, u) batch =
    ((merge_projects projects batch).1,
     a + (merge_projects projects batch).2.1,
     u + (merge_projects projects batch).2.2) := by
  induction batch generalizing projects a u with
  | nil => rfl
  | cons r T ih =>
    rw [List.foldl_cons]
    have hun : merge_projects projects (r :: T) =
        List.foldl
          (fun acc project =>
            let m := merge_project acc.1 project
            if m.2 then (m.1, acc.2.1 + 1, acc.2.2) else (m.1, acc.2.1, acc.2.2 + 1))
          (projects, 0, 0) (r :: T) := rfl
    rw [hun, List.foldl_cons]
    by_cases h2 : (merge_project projects r).2 = true
    · simp only [h2, if_true]
      rw [ih, ih]
      dsimp only
      refine congrArg₂ Prod.mk rfl ?_
      refine congrArg₂ Prod.mk (by omega) (by omega)
    · simp only [Bool.not_eq_true] at h2
      simp only [h2, Bool.false_eq_true, if_false]
      rw [ih, ih]
      dsimp only
      refine congrArg₂ Prod.mk rfl ?_
      refine congrArg₂ Prod.mk (by omega) (by omega)

theorem merge_projects_eq_alt (batch : List Project) (projects : List Project) :
    merge_projects projects batch = merge_projects_alt projects batch := by
  induction batch generalizing projects with
  | nil => rfl
  | cons r T ih =>
    have hun : merge_projects projects (r :: T) =
        List.foldl
          (fun acc project =>
            let m := merge_project acc.1 project
            if m.2 then (m.1, acc.2.1 + 1, acc.2.2) else (m.1, acc.2.1, acc.2.2 + 1))
          (projects, 0, 0) (r :: T) := rfl
    rw [hun, List.foldl_cons]
    by_cases h2 : (merge_project projects r).2 = true
    · simp only [h2, if_true]
      rw [merge_projects_foldl, ih]
      simp [merge_projects_alt, h2]
    · simp only [Bool.not_eq_true] at h2
      simp only [h2, Bool.false_eq_true, if_false]
      rw [merge_projects_foldl, ih]
      simp [merge_projects_alt, h2]

theorem keys_replace_first (projects : List Project) (p : Project) :
    keys_of (replace_first_by_key (get_project_key p) p projects) =
      keys_of projects := by
  induction projects with
  | nil => rfl
  | cons q qs ih =>
    by_cases hq : get_project_key q = get_project_key p
    · simp [replace_first_by_key, hq, keys_of]
    · simp only [replace_first_by_key, hq, if_false, ite_false, keys_of,
                 List.map_cons] at ih ⊢
      exact congrArg _ ih

theorem keys_merge (projects : List Project) (p : Project) :
    keys_of (merge_project projects p).1 =
      if has_key projects (get_project_key p) then keys_of projects
      else keys_of projects ++ [get_project_key p] := by
  rw [merge_project_eq_alt]
  by_cases h : has_key projects (get_project_key p) = true
  · simp [merge_project_alt, h, keys_replace_first]
  · simp only [Bool.not_eq_true] at h
    simp [merge_project_alt, h, keys_of]

theorem nodup_keys_merge (projects : List Project) (p : Project)
    (h : (keys_of projects).Nodup) : (keys_of (merge_project projects p).1).Nodup := by
  rw [keys_merge]
  by_cases hk : has_key projects (get_project_key p) = true
  · simpa [hk] using h
  · simp only [Bool.not_eq_true] at hk
    simp only [hk, Bool.false_eq_true, if_false]
    rw [List.nodup_append]
    refine ⟨h, List.nodup_singleton _, ?_⟩
    intro x hx hxp
    rw [List.mem_singleton] at hxp
    subst hxp
    exact absurd ((has_key_iff_mem _ _).mpr hx) (by simp [hk])

theorem lookup_replace_first (projects : List Project) (p : Project) (k : String)
    (hp : has_key projects (get_project_key p) = true) :
    lookup_key (replace_first_by_key (get_project_key p) p projects) k =
      if k = get_project_key p then some p else lookup_key projects k := by
  induction projects with
  | nil => simp [has_key] at hp
  | cons q qs ih =>
    by_cases hq : get_project_key q = get_project_key p
    · by_cases hk : k = get_project_key p
      · subst hk
        simp [replace_first_by_key, hq, lookup_key,
              List.find?_cons_of_pos _ (by simp [beq_iff_eq] : ((fun x =>
                get_project_key x == get_project_key p) p) = true)]
      · have hq2 : ¬ get_project_key q = k := fun hc => hk (hc ▸ hq.symm).symm
        simp only [replace_first_by_key, hq, if_true, ite_true, lookup_key]
        rw [List.find?_cons_of_neg _ (by simp [beq_iff_eq]; exact fun hc => hk hc.symm),
            List.find?_cons_of_neg _ (by simp [beq_iff_eq]; exact fun hc => hq2 hc)]
        simp [hk]
    · have hp2 : has_key qs (get_project_key p) = true := by
        obtain ⟨x, hx, hbe⟩ := List.any_eq_true.mp hp
        rcases List.mem_cons.mp hx with rfl | hxqs
        · exact absurd (beq_iff_eq.mp hbe) hq
        · exact List.any_eq_true.mpr ⟨x, hxqs, hbe⟩
      by_cases hqk : get_project_key q = k
      · have hkp : ¬ k = get_project_key p := fun hc => hq (hqk.symm ▸ hc)
        simp only [replace_first_by_key, hq, if_false, ite_false, lookup_key]
        rw [List.find?_cons_of_pos _ (by simp [beq_iff_eq, hqk]),
            List.find?_cons_of_pos _ (by simp [beq_iff_eq, hqk])]
        simp [hkp]
      · simp only [replace_first_by_key, hq, if_false, ite_false, lookup_key]
        rw [List.find?_cons_of_neg _ (by simp [beq_iff_eq, hqk]),
            List.find?_cons_of_neg _ (by simp [beq_iff_eq, hqk])]
        exact ih hp2

theorem lookup_merge (projects : List Project) (p : Project) (k : String) :
    lookup_key (merge_project projects p).1 k =
      if k = get_project_key p then some p else lookup_key projects k := by
  rw [merge_project_eq_alt]
  by_cases h : has_key projects (get_project_key p) = true
  · simpa [merge_project_alt, h] using lookup_replace_first projects p k h
  · have hnone : lookup_key projects (get_project_key p) = none := by
      apply lookup_eq_none_of_not_mem
      intro hm
      exact absurd ((has_key_iff_mem _ _).mpr hm) h
    simp only [Bool.not_eq_true] at h
    simp only [merge_project_alt, h, Bool.false_eq_true, if_false]
    unfold lookup_key
    rw [List.find?_append]
    by_cases hk : k = get_project_key p
    · subst hk
      have hfp : List.find? (fun q =>
          get_project_key q == get_project_key p) projects = none := hnone
      have hone : List.find? (fun q =>
          get_project_key q == get_project_key p) [p] = some p :=
        List.find?_cons_of_pos ([] : List Project) (by simp [beq_iff_eq])
      rw [hfp, hone]
      simp
    · rw [List.find?_cons_of_neg _ (by simp [beq_iff_eq]; exact fun hc => hk hc.symm)]
      simp [hk]

theorem last_with_key_cons (r : Project) (S : List Project) (k : String) :
    last_with_key (r :: S) k =
      (last_with_key S k).or (if get_project_key r = k then some r else none) := by
  unfold last_with_key
  rw [List.reverse_cons, List.find?_append]
  congr 1
  by_cases h : get_project_key r = k
  · rw [List.find?_cons_of_pos ([] : List Project) (by simp [beq_iff_eq, h])]
    simp [h]
  · rw [List.find?_cons_of_neg ([] : List Project) (by simp [beq_iff_eq, h])]
    simp [h]

theorem alt_cons_fst (projects : List Project) (r : Project) (T : List Project) :
    (merge_projects_alt projects (r :: T)).1 =
      (merge_projects (merge_project projects r).1 T).1 := by
  rw [merge_projects_eq_alt]
  simp only [merge_projects_alt]

theorem lookup_merge_projects (batch : List Project) (projects : List Project)
    (k : String) :
    lookup_key (merge_projects projects batch).1 k =
      (last_with_key batch k).or (lookup_key projects k) := by
  induction batch generalizing projects with
  | nil => simp [merge_projects, last_with_key]
  | cons r T ih =>
    rw [merge_projects_eq_alt, alt_cons_fst, ih, lookup_merge, last_with_key_cons]
    cases hlast : last_with_key T k with
    | some a => simp
    | none =>
      simp only [Option.none_or]
      by_cases hk : k = get_project_key r
      · simp [hk]
      · have hk2 : ¬ get_project_key r = k := fun hc => hk hc.symm
        simp [hk, hk2]

theorem has_key_lookup (projects : List Project) (k : String) :
    has_key projects k = (lookup_key projects k).isSome := by
  rw [Bool.eq_iff_iff]
  simp [has_key, lookup_key, List.any_eq_true, List.find?_isSome]

theorem has_key_merge_projects_mem (batch : List Project) (projects : List Project)
    (r : Project) (hr : r ∈ batch) :
    has_key (merge_projects projects batch).1 (get_project_key r) = true := by
  rw [has_key_lookup, lookup_merge_projects]
  have hsome : (last_with_key batch (get_project_key r)).isSome = true := by
    unfold last_with_key
    exact List.find?_isSome.mpr ⟨r, by simp [List.mem_reverse, hr], by simp [beq_iff_eq]⟩
  obtain ⟨a, ha⟩ := Option.isSome_iff_exists.mp hsome
  simp [ha]

theorem keys_merge_projects_all (batch : List Project) (projects : List Project)
    (h : ∀ r ∈ batch, has_key projects (get_project_key r) = true) :
    keys_of (merge_projects projects batch).1 = keys_of projects := by
  induction batch generalizing projects with
  | nil => rfl
  | cons r T ih =>
    have hr := h r (List.mem_cons_self r T)
    have hkeys : keys_of (merge_project projects r).1 = keys_of projects := by
      rw [keys_merge, if_pos hr]
    have hall : ∀ x ∈ T,
        has_key (merge_project projects r).1 (get_project_key x) = true := by
      intro x hx
      rw [has_key_iff_mem, hkeys, ← has_key_iff_mem]
      exact h x (List.mem_cons_of_mem r hx)
    rw [merge_projects_eq_alt, alt_cons_fst, ih _ hall, hkeys]

theorem stats_merge_projects_all (batch : List Project) (projects : List Project)
    (h : ∀ r ∈ batch, has_key projects (get_project_key r) = true) :
    (merge_projects projects batch).2 = (0, batch.length) := by
  induction batch generalizing projects with
  | nil => rfl
  | cons r T ih =>
    have hr := h r (List.mem_cons_self r T)
    have hupd : (merge_project projects r).2 = false := by
      rw [merge_project_eq_alt, merge_project_alt, if_pos hr]
    have hkeys : keys_of (merge_project projects r).1 = keys_of projects := by
      rw [keys_merge, if_pos hr]
    have hall : ∀ x ∈ T,
        has_key (merge_project projects r).1 (get_project_key x) = true := by
      intro x hx
      rw [has_key_iff_mem, hkeys, ← has_key_iff_mem]
      exact h x (List.mem_cons_of_mem r hx)
    rw [merge_projects_eq_alt]
    simp only [merge_projects_alt]
    rw [← merge_projects_eq_alt, hupd, ih _ hall]
    simp [Nat.add_comm]

theorem nodup_keys_merge_projects (batch : List Project) (projects : List Project)
    (h : (keys_of projects).Nodup) :
    (keys_of (merge_projects projects batch).1).Nodup := by
  induction batch generalizing projects with
  | nil => exact h
  | cons r T ih =>
    rw [merge_projects_eq_alt, alt_cons_fst]
    exact ih _ (nodup_keys_merge projects r h)

theorem eq_of_keys_lookup (J1 J : List Project)
    (hk : keys_of J1 = keys_of J) (hnd : (keys_of J).Nodup)
    (hl : ∀ k, lookup_key J1 k = lookup_key J k) : J1 = J := by
  induction J1 generalizing J with
  | nil =>
    cases J with
    | nil => rfl
    | cons p t => simp [keys_of] at hk
  | cons p1 t1 ih =>
    cases J with
    | nil => simp [keys_of] at hk
    | cons p t =>
      simp only [keys_of, List.map_cons, List.cons.injEq] at hk
      obtain ⟨hkey, htail⟩ := hk
      have hhead : p1 = p := by
        have h1 := hl (get_project_key p)
        simp only [lookup_key] at h1
        rw [List.find?_cons_of_pos _ (by simp [beq_iff_eq, hkey]),
            List.find?_cons_of_pos _ (by simp [beq_iff_eq])] at h1
        exact Option.some.inj h1
      subst hhead
      simp only [keys_of, List.map_cons, List.nodup_cons] at hnd
      have hnotmem : get_project_key p1 ∉ keys_of t := by
        intro hc
        exact hnd.1 (by simpa [keys_of] using hc)
      congr 1
      apply ih t htail (by simpa [keys_of] using hnd.2)
      intro k
      by_cases hK : k = get_project_key p1
      · subst hK
        have hnotmem1 : get_project_key p1 ∉ keys_of t1 := by
          intro hc
          apply hnotmem
          have hkk : keys_of t1 = keys_of t := by simpa [keys_of] using htail
          rwa [hkk] at hc
        rw [lookup_eq_none_of_not_mem t1 _ hnotmem1,
            lookup_eq_none_of_not_mem t _ hnotmem]
      · have h1 := hl k
        simp only [lookup_key] at h1 ⊢
        rw [List.find?_cons_of_neg _ (by simp [beq_iff_eq]; exact fun hc => hK hc.symm),
            List.find?_cons_of_neg _ (by simp [beq_iff_eq]; exact fun hc => hK hc.symm)] at h1
        exact h1

theorem replace_first_eq_set (projects : List Project) (B : Project) (i : Nat)
    (hi : i < projects.length) (hinv : (keys_of projects).Nodup)
    (hk : get_project_key (projects.get ⟨i, hi⟩) = get_project_key B) :
    replace_first_by_key (get_project_key B) B projects = projects.set i B := by
  induction projects generalizing i with
  | nil => simp at hi
  | cons q qs ih =>
    cases i with
    | zero =>
      simp only [List.get] at hk
      rw [replace_first_by_key, if_pos hk, List.set_cons_zero]
    | succ n =>
      have hn : n < qs.length := by simpa using hi
      have hkq : get_project_key (qs.get ⟨n, hn⟩) = get_project_key B := by
        simpa using hk
      simp only [keys_of, List.map_cons, List.nodup_cons] at hinv
      have hq : ¬ get_project_key q = get_project_key B := by
        intro hc
        apply hinv.1
        rw [hc, ← hkq]
        exact List.mem_map.mpr ⟨_, List.get_mem qs n hn, rfl⟩
      rw [replace_first_by_key, if_neg hq, List.set_cons_succ]
      congr 1
      exact ih n hn (by simpa [keys_of] using hinv.2) hkq

theorem filter_set_key (projects : List Project) (B : Project) (i : Nat)
    (hi : i < projects.length) (hinv : (keys_of projects).Nodup)
    (hk : get_project_key (projects.get ⟨i, hi⟩) = get_project_key B) :
    (projects.set i B).filter
      (fun q => get_project_key q == get_project_key B) = [B] := by
  induction projects generalizing i with
  | nil => simp at hi
  | cons q qs ih =>
    cases i with
    | zero =>
      simp only [List.get] at hk
      rw [List.set_cons_zero, List.filter_cons, if_pos (by simp [beq_iff_eq])]
      have hfe : qs.filter (fun x => get_project_key x == get_project_key B) = [] := by
        rw [List.filter_eq_nil_iff]
        intro a ha hbe
        simp only [keys_of, List.map_cons, List.nodup_cons] at hinv
        apply hinv.1
        rw [hk, ← beq_iff_eq.mp hbe]
        exact List.mem_map.mpr ⟨a, ha, rfl⟩
      rw [hfe]
    | succ n =>
      have hn : n < qs.length := by simpa using hi
      have hkq : get_project_key (qs.get ⟨n, hn⟩) = get_project_key B := by
        simpa using hk
      simp only [keys_of, List.map_cons, List.nodup_cons] at hinv
      have hq : ¬ get_project_key q = get_project_key B := by
        intro hc
        apply hinv.1
        rw [hc, ← hkq]
        exact List.mem_map.mpr ⟨_, List.get_mem qs n hn, rfl⟩
      rw [List.set_cons_succ, List.filter_cons, if_neg (by simp [beq_iff_eq, hq])]
      exact ih n hn (by simpa [keys_of] using hinv.2) hkq

/-! ### Claim theorems -/

/-- C1, counterexample: the claim keys Records by the (source, full_name)
pair, but the code keys them by the concatenated string
`source + ":" + full_name` (schema.py line 55).  `colon_rec_a` and
`colon_rec_b` differ in the pair but share the string key `"GitHub:x:y"`, so
`merge_one` replaces instead of appending and reports Updated, while the claim
demands an append reporting Added. -/
theorem c1_pair_key_counterexample :
    ¬ (colon_rec_a.source = colon_rec_b.source ∧
       colon_rec_a.full_name = colon_rec_b.full_name) ∧
    merge_project [colon_rec_a] colon_rec_b = ([colon_rec_b], false) ∧
    merge_project [colon_rec_a] colon_rec_b ≠ ([colon_rec_a, colon_rec_b], true) := by
  refine ⟨by decide, by decide, by decide⟩

/-- C1, amended: with keys compared as the code's string
`source + ":" + full_name` (which coincides with the (source, full_name) pair
whenever no source contains a colon), and for an Index satisfying the key
uniqueness invariant: if the entry at position `i` carries B's key, then
`merge_one(B)` replaces exactly that entry in place and reports Updated, and
afterwards exactly one Record carries B's key and it equals B; if no entry
carries B's key, `merge_one(B)` appends B and reports Added. -/
theorem c1_merge_one_amended (projects : List Project) (B : Project)
    (hinv : (keys_of projects).Nodup) :
    (∀ i (hi : i < projects.length),
        get_project_key (projects.get ⟨i, hi⟩) = get_project_key B →
        merge_project projects B = (projects.set i B, false) ∧
        (projects.set i B).filter
          (fun q => get_project_key q == get_project_key B) = [B]) ∧
    ((∀ q ∈ projects, get_project_key q ≠ get_project_key B) →
        merge_project projects B = (projects ++ [B], true)) := by
  constructor
  · intro i hi hk
    have hhk : has_key projects (get_project_key B) = true :=
      List.any_eq_true.mpr ⟨_, List.get_mem projects i hi,
        by simpa [beq_iff_eq] using hk⟩
    constructor
    · rw [merge_project_eq_alt, merge_project_alt, if_pos hhk,
          replace_first_eq_set projects B i hi hinv hk]
    · exact filter_set_key projects B i hi hinv hk
  · intro hnone
    have hhk : has_key projects (get_project_key B) = false := by
      cases hks : has_key projects (get_project_key B)
      · rfl
      · obtain ⟨x, hx, hbe⟩ := List.any_eq_true.mp hks
        exact absurd (beq_iff_eq.mp hbe) (hnone x hx)
    rw [merge_project_eq_alt, merge_project_alt, if_neg (by simp [hhk])]

/-- C1, witness: in the two-record index `[wit_rec_a, wit_rec_b]`, merging
`wit_rec_b2` (same key as `wit_rec_b`) replaces position 1 in place and
reports Updated, leaving it the only record with that key; merging
`wit_rec_c` (fresh key) appends and reports Added. -/
theorem c1_merge_one_amended_witness :
    merge_project [wit_rec_a, wit_rec_b] wit_rec_b2 =
      ([wit_rec_a, wit_rec_b2], false) ∧
    ([wit_rec_a, wit_rec_b2]).filter
      (fun q => get_project_key q == get_project_key wit_rec_b2) = [wit_rec_b2] ∧
    merge_project [wit_rec_a, wit_rec_b] wit_rec_c =
      ([wit_rec_a, wit_rec_b, wit_rec_c], true) := by
  have h := c1_merge_one_amended [wit_rec_a, wit_rec_b] wit_rec_b2 (by decide)
  have h1 := h.1 1 (by decide) (by decide)
  have h2 := (c1_merge_one_amended [wit_rec_a, wit_rec_b] wit_rec_c (by decide)).2
    (by decide)
  have hset : [wit_rec_a, wit_rec_b].set 1 wit_rec_b2 = [wit_rec_a, wit_rec_b2] := rfl
  refine ⟨?_, ?_, ?_⟩
  · rw [h1.1, hset]
  · rw [← hset]
    exact h1.2
  · exact h2

/-- C2: every Index reachable from the empty Index by `merge_one` /
`merge_many` operations has pairwise distinct (source, full_name) pairs
(string-key uniqueness is the invariant the merge maintains, and equal pairs
give equal string keys). -/
theorem c2_key_uniqueness (projects : List Project) (h : ReachableIndex projects) :
    List.Pairwise (fun a b => ¬ (a.source = b.source ∧ a.full_name = b.full_name))
      projects := by
  have hnd : (keys_of projects).Nodup := by
    induction h with
    | empty => simp [keys_of]
    | step ps p hr ihr => exact nodup_keys_merge ps p ihr
    | batch ps S hr ihr => exact nodup_keys_merge_projects S ps ihr
  have hpw : List.Pairwise (fun a b => get_project_key a ≠ get_project_key b)
      projects := List.pairwise_map.mp hnd
  exact hpw.imp (fun hne hc =>
    hne (by rw [get_project_key, get_project_key, hc.1, hc.2]))

/-- C2, witness: the index obtained by merging a three-record batch (with an
in-batch duplicate key) into the empty index has pairwise distinct
(source, full_name) pairs. -/
theorem c2_key_uniqueness_witness :
    List.Pairwise (fun a b => ¬ (a.source = b.source ∧ a.full_name = b.full_name))
      ((merge_projects [] [wit_rec_a, wit_rec_b, wit_rec_b2]).1) :=
  c2_key_uniqueness _ (ReachableIndex.batch [] [wit_rec_a, wit_rec_b, wit_rec_b2]
    ReachableIndex.empty)

/-- C3: merging a batch twice into the empty Index leaves the contents of the
single merge unchanged, and the second merge reports 0 added and
`batch.length` updated. -/
theorem c3_merge_idempotent (batch : List Project) :
    merge_projects (merge_projects [] batch).1 batch =
      ((merge_projects [] batch).1, 0, batch.length) := by
  set J := (merge_projects [] batch).1 with hJ
  have hall : ∀ r ∈ batch, has_key J (get_project_key r) = true := by
    intro r hr
    exact has_key_merge_projects_mem batch [] r hr
  have hnd : (keys_of J).Nodup :=
    nodup_keys_merge_projects batch [] (by simp [keys_of])
  have hkeys : keys_of (merge_projects J batch).1 = keys_of J :=
    keys_merge_projects_all batch J hall
  have hstats : (merge_projects J batch).2 = (0, batch.length) :=
    stats_merge_projects_all batch J hall
  have hlook : ∀ k, lookup_key (merge_projects J batch).1 k = lookup_key J k := by
    intro k
    rw [lookup_merge_projects]
    have hJk : lookup_key J k = (last_with_key batch k).or (lookup_key [] k) := by
      rw [hJ]
      exact lookup_merge_projects batch [] k
    rw [hJk]
    cases hl : last_with_key batch k with
    | some a => simp
    | none => simp [lookup_key]
  have hfst : (merge_projects J batch).1 = J :=
    eq_of_keys_lookup _ J hkeys hnd hlook
  calc merge_projects J batch
      = ((merge_projects J batch).1, (merge_projects J batch).2) := rfl
    _ = (J, 0, batch.length) := by rw [hfst, hstats]

theorem map_repo_isSome (iso : String → Option Timestamp)
    (hiso : ∀ s, (iso s).isSome = true) (repo : RawRepo) :
    (map_repo iso repo).isSome = true := by
  unfold map_repo
  obtain ⟨c, hc⟩ :=
    Option.isSome_iff_exists.mp (hiso (repo.created_at.replace "Z" "+00:00"))
  obtain ⟨u, hu⟩ :=
    Option.isSome_iff_exists.mp (hiso (repo.updated_at.replace "Z" "+00:00"))
  rw [hc, hu]
  rfl

theorem map_repos_isSome (iso : String → Option Timestamp)
    (hiso : ∀ s, (iso s).isSome = true) :
    ∀ l : List RawRepo, (map_repos iso l).isSome = true := by
  intro l
  induction l with
  | nil => rfl
  | cons r rs ih =>
    cases hp : r.isPrivate with
    | true => simpa [map_repos, hp] using ih
    | false =>
      obtain ⟨p, hp1⟩ := Option.isSome_iff_exists.mp (map_repo_isSome iso hiso r)
      obtain ⟨ps, hps⟩ := Option.isSome_iff_exists.mp ih
      simp [map_repos, hp, hp1, hps]

theorem fetch_repos_loop_succ (iso : String → Option Timestamp)
    (endpoint : Nat → List RawRepo) (fuel page : Nat) (acc : List Project)
    (reqs : Nat) :
    fetch_repos_loop iso endpoint (fuel + 1) page acc reqs =
      (if (endpoint page).isEmpty then some (acc, reqs + 1)
       else
         match map_repos iso (endpoint page) with
         | none => none
         | some ps =>
             if (endpoint page).length < per_page then some (acc ++ ps, reqs + 1)
             else fetch_repos_loop iso endpoint fuel (page + 1) (acc ++ ps)
                    (reqs + 1)) := rfl

theorem fetch_repos_loop_spec (iso : String → Option Timestamp)
    (endpoint : Nat → List RawRepo) (hiso : ∀ s, (iso s).isSome = true) :
    ∀ (kp page : Nat) (acc : List Project) (reqs fuel : Nat),
      kp + 1 ≤ fuel →
      (∀ i, i < kp → (endpoint (page + i)).length = per_page) →
      (endpoint (page + kp)).length < per_page →
      fetch_repos_loop iso endpoint fuel page acc reqs =
        some (acc ++ ((List.range' page (kp + 1)).map
            (fun i => (map_repos iso (endpoint i)).getD [])).flatten,
          reqs + (kp + 1)) := by
  intro kp
  induction kp with
  | zero =>
    intro page acc reqs fuel hfuel hfull hshort
    obtain ⟨f, rfl⟩ : ∃ f, fuel = f + 1 := ⟨fuel - 1, by omega⟩
    rw [fetch_repos_loop_succ]
    simp only [Nat.add_zero] at hshort
    by_cases hemp : (endpoint page).isEmpty = true
    · rw [if_pos hemp]
      have he : endpoint page = [] := List.isEmpty_iff.mp hemp
      simp [List.range'_succ, he, map_repos]
    · rw [if_neg hemp]
      obtain ⟨ps, hps⟩ :=
        Option.isSome_iff_exists.mp (map_repos_isSome iso hiso (endpoint page))
      rw [hps]
      dsimp only
      rw [if_pos hshort]
      simp [List.range'_succ, hps]
  | succ kp ih =>
    intro page acc reqs fuel hfuel hfull hshort
    obtain ⟨f, rfl⟩ : ∃ f, fuel = f + 1 := ⟨fuel - 1, by omega⟩
    rw [fetch_repos_loop_succ]
    have h0 : (endpoint page).length = per_page := by
      have h00 := hfull 0 (by omega)
      simpa using h00
    have hne : ¬ (endpoint page).isEmpty = true := by
      rw [List.isEmpty_iff]
      intro hc
      rw [hc] at h0
      simp [per_page] at h0
    rw [if_neg hne]
    obtain ⟨ps, hps⟩ :=
      Option.isSome_iff_exists.mp (map_repos_isSome iso hiso (endpoint page))
    rw [hps]
    dsimp only
    rw [if_neg (by rw [h0]; exact Nat.lt_irrefl per_page)]
    rw [ih (page + 1) (acc ++ ps) (reqs + 1) f (by omega)
        (fun i hi => by
          have hf := hfull (i + 1) (by omega)
          rwa [show page + (i + 1) = page + 1 + i by omega] at hf)
        (by rwa [show page + 1 + kp = page + (kp + 1) by omega])]
    rw [show List.range' page (kp + 1 + 1) = page :: List.range' (page + 1) (kp + 1)
        from List.range'_succ page (kp + 1) 1]
    simp only [List.map_cons, List.flatten_cons, hps, Option.getD_some,
               Option.some.injEq, Prod.mk.injEq, List.append_assoc]
    exact ⟨trivial, by omega⟩

/-- C4: for every simulated paged endpoint whose pages 1..k-1 are full
(`per_page = 100` items) and whose page k is short (fewer than 100 items,
possibly empty), and any parseable timestamps, `fetch_public_repos` issues
exactly `k` page requests and yields exactly the in-order mapped public
Records of pages 1..k; in particular pagination terminates exactly at the
first short or empty page. -/
theorem c4_pagination_termination (iso : String → Option Timestamp)
    (endpoint : Nat → List RawRepo) (k fuel : Nat) (hk : 1 ≤ k)
    (hfuel : k ≤ fuel) (hiso : ∀ s, (iso s).isSome = true)
    (hfull : ∀ i, 1 ≤ i → i < k → (endpoint i).length = per_page)
    (hshort : (endpoint k).length < per_page) :
    fetch_public_repos iso endpoint fuel =
      some (((List.range' 1 k).map
          (fun i => (map_repos iso (endpoint i)).getD [])).flatten, k) := by
  obtain ⟨kp, rfl⟩ : ∃ kp, k = kp + 1 := ⟨k - 1, by omega⟩
  unfold fetch_public_repos
  rw [fetch_repos_loop_spec iso endpoint hiso kp 1 [] 0 fuel (by omega)
      (fun i hi => hfull (1 + i) (by omega) (by omega))
      (by rwa [show 1 + kp = kp + 1 by omega])]
  simp

theorem map_repos_replicate (iso : String → Option Timestamp) (r : RawRepo)
    (p : Project) (n : Nat) (hpub : r.isPrivate = false)
    (hmap : map_repo iso r = some p) :
    map_repos iso (List.replicate n r) = some (List.replicate n p) := by
  induction n with
  | zero => rfl
  | succ m ih =>
    rw [List.replicate_succ]
    simp [map_repos, hpub, hmap, ih, List.replicate_succ]

/-- C4, witness: against the simulated endpoint with page sizes
[100, 100, 37], the fetch issues exactly 3 page requests and yields 237
mapped Records. -/
theorem c4_pagination_termination_witness :
    fetch_public_repos iso_all c4_endpoint 3 =
      some (((List.range' 1 3).map
          (fun i => (map_repos iso_all (c4_endpoint i)).getD [])).flatten, 3) ∧
    (((List.range' 1 3).map
        (fun i => (map_repos iso_all (c4_endpoint i)).getD [])).flatten).length
      = 237 := by
  constructor
  · exact c4_pagination_termination iso_all c4_endpoint 3 3 (by omega) (by omega)
      (fun s => rfl)
      (fun i h1 h2 => by interval_cases i <;> rfl)
      (by simp only [c4_endpoint, per_page, List.length_replicate]; omega)
  · obtain ⟨P, hP⟩ : ∃ P, map_repo iso_all sample_repo = some P := ⟨_, rfl⟩
    have h100 : map_repos iso_all (List.replicate 100 sample_repo) =
        some (List.replicate 100 P) :=
      map_repos_replicate iso_all sample_repo P 100 rfl hP
    have h37 : map_repos iso_all (List.replicate 37 sample_repo) =
        some (List.replicate 37 P) :=
      map_repos_replicate iso_all sample_repo P 37 rfl hP
    rw [show List.range' 1 3 = [1, 2, 3] from rfl]
    simp only [List.map_cons, List.map_nil]
    rw [show c4_endpoint 1 = List.replicate 100 sample_repo from rfl,
        show c4_endpoint 2 = List.replicate 100 sample_repo from rfl,
        show c4_endpoint 3 = List.replicate 37 sample_repo from rfl,
        h100, h37]
    simp only [Option.getD_some, List.flatten_cons, List.flatten_nil,
               List.append_nil, List.length_append, List.length_replicate]

theorem map_models_replicate (iso : String → Option Timestamp) (m : RawHFItem)
    (n : Nat) (hpub : m.isPrivate = false) :
    map_models iso (List.replicate n m) = List.replicate n (map_model iso m) := by
  induction n with
  | zero => rfl
  | succ j ih =>
    rw [List.replicate_succ]
    simp [map_models, hpub, ih, List.replicate_succ]

/-- C5, counterexample: the HuggingFace category fetches issue one single
request with `limit: 500` and never paginate (huggingface_indexer.py lines
68-77); for an account with 501 public models the fetch yields only 500
Records, so it is not the complete sequence of public Records. -/
theorem c5_single_request_counterexample :
    (fetch_public_models iso_all big_hf_account).length = 500 ∧
    (complete_public_models iso_all big_hf_account).length = 501 ∧
    fetch_public_models iso_all big_hf_account ≠
      complete_public_models iso_all big_hf_account := by
  have hfetch : fetch_public_models iso_all big_hf_account =
      List.replicate 500 (map_model iso_all sample_hf_item) := by
    unfold fetch_public_models hf_endpoint big_hf_account
    rw [List.take_replicate]
    rw [show (500 ⊓ 501 : Nat) = 500 by omega]
    exact map_models_replicate iso_all sample_hf_item 500 rfl
  have hcomp : complete_public_models iso_all big_hf_account =
      List.replicate 501 (map_model iso_all sample_hf_item) :=
    map_models_replicate iso_all sample_hf_item 501 rfl
  refine ⟨by rw [hfetch, List.length_replicate],
          by rw [hcomp, List.length_replicate], ?_⟩
  intro hc
  have hlen := congrArg List.length hc
  rw [hfetch, hcomp, List.length_replicate, List.length_replicate] at hlen
  exact absurd hlen (by omega)

/-- C5, amended: each HuggingFace category fetch issues a single request with
page-size limit 500 and does not paginate: it yields exactly the public
Records among the first 500 items the endpoint serves (items beyond the first
500 are never fetched), and therefore yields the complete sequence of public
Records for the category whenever the account holds at most 500 items. -/
theorem c5_fetch_complete_amended (iso : String → Option Timestamp)
    (account : List RawHFItem) :
    (fetch_public_models iso account =
        complete_public_models iso (account.take 500) ∧
     fetch_public_datasets iso account =
        complete_public_datasets iso (account.take 500) ∧
     fetch_public_spaces iso account =
        complete_public_spaces iso (account.take 500)) ∧
    (account.length ≤ 500 →
      fetch_public_models iso account = complete_public_models iso account ∧
      fetch_public_datasets iso account = complete_public_datasets iso account ∧
      fetch_public_spaces iso account = complete_public_spaces iso account) := by
  constructor
  · exact ⟨rfl, rfl, rfl⟩
  · intro h
    have ht : hf_endpoint account 500 = account := List.take_of_length_le h
    unfold fetch_public_models fetch_public_datasets fetch_public_spaces
      complete_public_models complete_public_datasets complete_public_spaces
    rw [ht]
    exact ⟨rfl, rfl, rfl⟩

/-- C5, witness: for a one-item account all three category fetches are
complete. -/
theorem c5_fetch_complete_amended_witness :
    fetch_public_models iso_all [sample_hf_item] =
      complete_public_models iso_all [sample_hf_item] ∧
    fetch_public_datasets iso_all [sample_hf_item] =
      complete_public_datasets iso_all [sample_hf_item] ∧
    fetch_public_spaces iso_all [sample_hf_item] =
      complete_public_spaces iso_all [sample_hf_item] :=
  (c5_fetch_complete_amended iso_all [sample_hf_item]).2 (by decide)

/-- C6, counterexample: a Record created exactly at `datetime.min` ties with
a Record whose `created_at` is absent (both sort keys are `datetime.min`),
and Python's stable descending sort keeps their original relative order:
sorting [None, T1, T2] with T1 = `datetime.min` < T2 yields [T2, None, T1],
not the claimed [T2, T1, None]. -/
theorem c6_sort_counterexample :
    rec_no_date.created_at = none ∧
    rec_min_date.created_at = some datetimeMin ∧
    rec_late_date.created_at = some 1 ∧
    datetimeMin < 1 ∧
    sort_by_date [rec_no_date, rec_min_date, rec_late_date] true =
      [rec_late_date, rec_no_date, rec_min_date] ∧
    sort_by_date [rec_no_date, rec_min_date, rec_late_date] true ≠
      [rec_late_date, rec_min_date, rec_no_date] := by
  refine ⟨rfl, rfl, rfl, by decide, by decide, by decide⟩

/-- C6, amended: whenever T1 is strictly later than `datetime.min` (and
T1 < T2), the stable descending sort of [None, T1, T2] yields [T2, T1, None]:
a Record with absent `created_at` sorts as the earliest possible timestamp
and hence to the end. -/
theorem c6_sort_desc_amended (a b c : Project) (t1 t2 : Timestamp)
    (ha : a.created_at = none) (hb : b.created_at = some t1)
    (hc : c.created_at = some t2) (h1 : datetimeMin < t1) (h2 : t1 < t2) :
    sort_by_date [a, b, c] true = [c, b, a] := by
  have hka : sort_date_key a = datetimeMin := by simp [sort_date_key, ha]
  have hkb : sort_date_key b = t1 := by simp [sort_date_key, hb]
  have hkc : sort_date_key c = t2 := by simp [sort_date_key, hc]
  simp [sort_by_date, sort_stable, insert_stable, hka, hkb, hkc, h1, h2]

/-- C6, witness: sorting [None, 1, 2] descending yields [2, 1, None]. -/
theorem c6_sort_desc_amended_witness :
    sort_by_date [rec_no_date, rec_late_date, rec_later_date] true =
      [rec_later_date, rec_late_date, rec_no_date] :=
  c6_sort_desc_amended rec_no_date rec_late_date rec_later_date 1 2 rfl rfl rfl
    (by decide) (by decide)

/-- C7: deserializing the prior snapshot never raises: a nonexistent file
yields no prior index (the run starts empty), and a file whose `json.load`
or whose pydantic validation fails is logged as a warning and likewise yields
no prior index rather than a fatal error. -/
theorem c7_snapshot_load_tolerant (json_load : String → Option Json)
    (default_metadata : List (String × Json)) (s : String) :
    load_existing_index FileRead.missing json_load default_metadata = none ∧
    (json_load s = none →
      load_existing_index (FileRead.content s) json_load default_metadata
        = none) ∧
    (∀ j, json_load s = some j →
      ProjectIndex.fromJson default_metadata j = none →
      load_existing_index (FileRead.content s) json_load default_metadata
        = none) := by
  refine ⟨rfl, ?_, ?_⟩
  · intro h
    simp [load_existing_index, h]
  · intro j hj hf
    simp [load_existing_index, hj, hf]

/-- C7, witness: a missing file and a corrupt file (whose text fails to
parse) both yield no prior index. -/
theorem c7_snapshot_load_tolerant_witness :
    load_existing_index FileRead.missing (fun _ => none) [] = none ∧
    load_existing_index (FileRead.content "corrupt") (fun _ => none) []
      = none :=
  ⟨(c7_snapshot_load_tolerant (fun _ => none) [] "corrupt").1,
   (c7_snapshot_load_tolerant (fun _ => none) [] "corrupt").2.1 rfl⟩

theorem decStrList_map (l : List String) :
    decStrList (l.map Json.str) = some l := by
  induction l with
  | nil => rfl
  | cons s rest ih => simp [decStrList, ih]

theorem project_fromJson_toJson (p : Project) :
    Project.fromJson p.toJson = some p := by
  obtain ⟨source, type, name, full_name, description, url, created_at,
          updated_at, language, topics⟩ := p
  cases description <;> cases created_at <;> cases updated_at <;>
    cases language <;>
    simp [Project.fromJson, Project.toJson, Json.getField, List.lookup,
          encOptStr, encOptTs, decReqStr, decOptStr, decOptTs, decTopics,
          decStrList_map]

theorem decProjectList_map (ps : List Project) :
    decProjectList (ps.map Project.toJson) = some ps := by
  induction ps with
  | nil => rfl
  | cons p rest ih => simp [decProjectList, project_fromJson_toJson, ih]

/-- C8: serializing an Index to the snapshot JSON value and deserializing
that snapshot through `load_existing_index` (given that the external JSON
text layer returns the value that was written) reproduces the Index, and in
particular a field-for-field equal sequence of Records. -/
theorem c8_snapshot_roundtrip (index : ProjectIndex)
    (default_metadata : List (String × Json)) (json_load : String → Option Json)
    (s : String) (h : json_load s = some index.to_json) :
    load_existing_index (FileRead.content s) json_load default_metadata =
      some index := by
  have hfrom : ProjectIndex.fromJson default_metadata index.to_json
      = some index := by
    simp [ProjectIndex.fromJson, ProjectIndex.to_json, Json.getField,
          List.lookup, decProjectList_map]
  simp [load_existing_index, h, hfrom]

/-- C8, witness: the concrete two-record index round-trips through
serialization and `load_existing_index`. -/
theorem c8_snapshot_roundtrip_witness :
    load_existing_index (FileRead.content "snapshot")
      (fun _ => some c8_index.to_json) [] = some c8_index :=
  c8_snapshot_roundtrip c8_index [] (fun _ => some c8_index.to_json)
    "snapshot" rfl

/-- C9: when neither platform indexer could be initialized, `main` exits
early before performing any write: the effect trace contains neither the
unified snapshot write nor any per-category export write. -/
theorem c9_no_writes_without_indexers (prior : Option ProjectIndex)
    (ghRepos ghGists hfAll : List Project) :
    (main_events false false prior ghRepos ghGists hfAll).filter isWriteEvent
      = [] := rfl

theorem mem_map_models (iso : String → Option Timestamp) (l : List RawHFItem)
    (it : RawHFItem) (hmem : it ∈ l) (hpub : it.isPrivate = false) :
    map_model iso it ∈ map_models iso l := by
  induction l with
  | nil => simp at hmem
  | cons x xs ih =>
    cases hx : x.isPrivate with
    | true =>
      rcases List.mem_cons.mp hmem with rfl | hxs
      · rw [hx] at hpub
        cases hpub
      · have hm : map_models iso (x :: xs) = map_models iso xs := by
          simp [map_models, hx]
        rw [hm]
        exact ih hxs
    | false =>
      have hm : map_models iso (x :: xs) =
          map_model iso x :: map_models iso xs := by
        simp [map_models, hx]
      rw [hm]
      rcases List.mem_cons.mp hmem with rfl | hxs
      · exact List.mem_cons_self _ _
      · exact List.mem_cons_of_mem _ (ih hxs)

/-- C10: a public raw item served by the endpoint always yields its mapped
Record in the model fetch, and when `createdAt` (resp. `lastModified`) is
absent, empty, or not parseable, the Record's `created_at` (resp.
`updated_at`) is `None` — timestamp parsing never raises and never causes
the item to be dropped. -/
theorem c10_hf_timestamp_tolerant (iso : String → Option Timestamp)
    (account : List RawHFItem) (it : RawHFItem)
    (hmem : it ∈ hf_endpoint account 500) (hpub : it.isPrivate = false) :
    map_model iso it ∈ fetch_public_models iso account ∧
    ((∀ s, it.createdAt = some s → iso (s.replace "Z" "+00:00") = none) →
      (map_model iso it).created_at = none) ∧
    ((∀ s, it.lastModified = some s → iso (s.replace "Z" "+00:00") = none) →
      (map_model iso it).updated_at = none) := by
  refine ⟨mem_map_models iso _ it hmem hpub, ?_, ?_⟩
  · intro hbad
    show parse_datetime iso it.createdAt = none
    cases hca : it.createdAt with
    | none => rfl
    | some s =>
      unfold parse_datetime
      cases hs : s == "" with
      | true => simp [hs]
      | false => simp [hs, hbad s hca]
  · intro hbad
    show parse_datetime iso it.lastModified = none
    cases hca : it.lastModified with
    | none => rfl
    | some s =>
      unfold parse_datetime
      cases hs : s == "" with
      | true => simp [hs]
      | false => simp [hs, hbad s hca]

/-- C10, witness: with a parser that rejects every string, the item with
unparseable timestamp fields still yields a Record whose timestamps are both
`None`. -/
theorem c10_hf_timestamp_tolerant_witness :
    map_model iso_none bad_date_hf_item ∈
      fetch_public_models iso_none [bad_date_hf_item] ∧
    (map_model iso_none bad_date_hf_item).created_at = none ∧
    (map_model iso_none bad_date_hf_item).updated_at = none := by
  have h := c10_hf_timestamp_tolerant iso_none [bad_date_hf_item]
    bad_date_hf_item (by decide) rfl
  exact ⟨h.1, h.2.1 (fun s hs => rfl), h.2.2 (fun s hs => rfl)⟩
